import Mathlib

/-!
Verification of the slot allocation and conflict-resolution engine of the
TDMA coordination system (src/src/ap/TDMAv7.py, with the success-record
lifecycle of src/src/ap/TDMAv4.py).

Modelling conventions:
- Python lists of slot indices become `List Nat` (validated slots) or
  `List Int` (raw proposals, which may be negative).
- `random.choice` / `random.randint` / `random.sample` draw from an
  explicit stream of naturals `rand : Nat -> Nat`; a draw `rand k` is
  reduced modulo the size of the candidate collection, so every concrete
  random behaviour of the Python code is some choice of `rand`.
- Python `while` loops are given explicit fuel; the fuel bounds used are
  large enough to cover every terminating run of the source loop.
- A Python function that can raise becomes `Option`-valued (`none` models
  an uncaught exception) or `Except`-valued where the exception text
  matters.
- Python `sorted` on integer lists is `List.insertionSort (· ≤ ·)`
  (observably equal for integers: a stable sort).
-/

/-- Models `random.choice(l)` for a nonempty list `l`, driven by one raw
random draw `r`. -/
def listChoice (r : Nat) (l : List Nat) : Nat :=
  l.getD (r % l.length) 0

/-- One iteration of the `for ch in new` loop of
`FeedbackCoordinator._resolve_conflicts` (TDMAv7.py lines 380-388): a
non-conflicting slot is kept, a conflicting one is replaced by a random
slot outside `existing` and the slots kept so far (skipped when no
alternative remains).  The accumulator carries the kept slots and the
position in the random stream. -/
def resolveStep (numChannels : Nat) (existing conflict : List Nat) (rand : Nat → Nat)
    (acc : List Nat × Nat) (ch : Nat) : List Nat × Nat :=
  if ch ∈ conflict then
    let alternatives := (List.range numChannels).filter
      (fun c => decide (c ∉ existing) && decide (c ∉ acc.1))
    if alternatives.isEmpty then acc
    else (acc.1 ++ [listChoice (rand acc.2) alternatives], acc.2 + 1)
  else (acc.1 ++ [ch], acc.2)

/-- The `while len(resolved) < len(new)` refill loop of
`_resolve_conflicts` (TDMAv7.py lines 391-396), with fuel.  Each pass
appends one random slot outside `existing` and `resolved`, stopping when
the target length is reached or no slot is available. -/
def fillLoop (numChannels target : Nat) (existing : List Nat) (rand : Nat → Nat) :
    Nat → Nat → List Nat → List Nat
  | 0, _, resolved => resolved
  | fuel + 1, k, resolved =>
    if resolved.length < target then
      let available := (List.range numChannels).filter
        (fun c => decide (c ∉ existing) && decide (c ∉ resolved))
      if available.isEmpty then resolved
      else fillLoop numChannels target existing rand fuel (k + 1)
        (resolved ++ [listChoice (rand k) available])
    else resolved

/-- `FeedbackCoordinator._resolve_conflicts(existing, new)` (TDMAv7.py
lines 374-398).  When `new` shares no slot with `existing` it is returned
verbatim; otherwise conflicting slots are replaced, missing slots are
refilled, and the first `len(new)` surviving slots are returned sorted. -/
def resolveConflicts (numChannels : Nat) (rand : Nat → Nat) (existing new : List Nat) :
    List Nat :=
  let conflict := new.filter (fun ch => decide (ch ∈ existing))
  if conflict.isEmpty then new
  else
    let acc := new.foldl (resolveStep numChannels existing conflict rand) ([], 0)
    let filled := fillLoop numChannels new.length existing rand new.length acc.2 acc.1
    List.insertionSort (· ≤ ·) (filled.take new.length)

/-- Phase 2 of `FeedbackCoordinator._negotiation_round` (TDMAv7.py lines
361-367): stations are processed in the fixed order, each station's
candidate set is resolved against the running `existing` reservation,
and its finalized slots are added to `existing`.  Station `i` consumes
the random stream `rand i`. -/
def resolveAllAux (numChannels : Nat) (rand : Nat → Nat → Nat) :
    Nat → List Nat → List (List Nat) → List (List Nat)
  | _, _, [] => []
  | i, existing, sel :: rest =>
    let r := resolveConflicts numChannels (rand i) existing sel
    r :: resolveAllAux numChannels rand (i + 1) (existing ++ r) rest

/-- The full sequential conflict-resolution pass over the ordered
per-station candidate sets. -/
def resolveAll (numChannels : Nat) (rand : Nat → Nat → Nat) (sels : List (List Nat)) :
    List (List Nat) :=
  resolveAllAux numChannels rand 0 [] sels

lemma listChoice_mem (r : Nat) (l : List Nat) (h : l ≠ []) : listChoice r l ∈ l := by
  have hlen : r % l.length < l.length :=
    Nat.mod_lt _ (List.length_pos.mpr h)
  rw [listChoice, List.getD_eq_getElem l 0 hlen]
  exact List.getElem_mem hlen

lemma not_isEmpty_ne_nil {l : List Nat} (h : l.isEmpty = false) : l ≠ [] := by
  intro hn
  rw [hn] at h
  simp at h

/-- Every slot produced by the per-slot replacement fold satisfies any
predicate `P` that holds on unreserved in-range slots and on the
non-conflicting candidate slots. -/
lemma resolveStep_fold_inv (numChannels : Nat) (existing conflict : List Nat)
    (rand : Nat → Nat) (P : Nat → Prop)
    (hrange : ∀ c, c < numChannels → c ∉ existing → P c) :
    ∀ (l : List Nat), (∀ ch ∈ l, ch ∉ conflict → P ch) →
      ∀ resolved k, (∀ x ∈ resolved, P x) →
        ∀ x ∈ (l.foldl (resolveStep numChannels existing conflict rand) (resolved, k)).1, P x := by
  intro l
  induction l with
  | nil =>
    intro _ resolved k hres x hx
    exact hres x hx
  | cons ch t ih =>
    intro hl resolved k hres x hx
    rw [List.foldl_cons] at hx
    by_cases hc : ch ∈ conflict
    · rw [resolveStep, if_pos hc] at hx
      set alternatives := (List.range numChannels).filter
        (fun c => decide (c ∉ existing) && decide (c ∉ resolved)) with halt
      by_cases he : alternatives.isEmpty
      · rw [if_pos he] at hx
        exact ih (fun a ha => hl a (List.mem_cons_of_mem _ ha)) resolved k hres x hx
      · rw [if_neg he] at hx
        refine ih (fun a ha => hl a (List.mem_cons_of_mem _ ha)) _ _ ?_ x hx
        intro y hy
        rcases List.mem_append.mp hy with hy1 | hy2
        · exact hres y hy1
        · have hy3 : y = listChoice (rand k) alternatives := List.mem_singleton.mp hy2
          have hmem : listChoice (rand k) alternatives ∈ alternatives :=
            listChoice_mem _ _ (not_isEmpty_ne_nil (Bool.eq_false_iff.mpr he))
          rw [halt] at hmem
          have hspec := List.mem_filter.mp hmem
          have hlt : listChoice (rand k) alternatives < numChannels :=
            List.mem_range.mp hspec.1
          have hnotex : listChoice (rand k) alternatives ∉ existing := by
            have := hspec.2
            rw [Bool.and_eq_true, decide_eq_true_iff, decide_eq_true_iff] at this
            exact this.1
          rw [hy3]
          exact hrange _ hlt hnotex
    · rw [resolveStep, if_neg hc] at hx
      refine ih (fun a ha => hl a (List.mem_cons_of_mem _ ha)) _ _ ?_ x hx
      intro y hy
      rcases List.mem_append.mp hy with hy1 | hy2
      · exact hres y hy1
      · rw [List.mem_singleton.mp hy2]
        exact hl ch (List.mem_cons_self _ _) hc

/-- Every slot produced by the refill loop satisfies any predicate `P`
that holds on unreserved in-range slots. -/
lemma fillLoop_inv (numChannels target : Nat) (existing : List Nat) (rand : Nat → Nat)
    (P : Nat → Prop) (hrange : ∀ c, c < numChannels → c ∉ existing → P c) :
    ∀ fuel k resolved, (∀ x ∈ resolved, P x) →
      ∀ x ∈ fillLoop numChannels target existing rand fuel k resolved, P x := by
  intro fuel
  induction fuel with
  | zero =>
    intro k resolved hres x hx
    exact hres x hx
  | succ n ih =>
    intro k resolved hres x hx
    rw [fillLoop] at hx
    by_cases hlt : resolved.length < target
    · rw [if_pos hlt] at hx
      set available := (List.range numChannels).filter
        (fun c => decide (c ∉ existing) && decide (c ∉ resolved)) with hav
      by_cases he : available.isEmpty
      · rw [if_pos he] at hx
        exact hres x hx
      · rw [if_neg he] at hx
        refine ih _ _ ?_ x hx
        intro y hy
        rcases List.mem_append.mp hy with hy1 | hy2
        · exact hres y hy1
        · have hy3 : y = listChoice (rand k) available := List.mem_singleton.mp hy2
          have hmem : listChoice (rand k) available ∈ available :=
            listChoice_mem _ _ (not_isEmpty_ne_nil (Bool.eq_false_iff.mpr he))
          rw [hav] at hmem
          have hspec := List.mem_filter.mp hmem
          have hlt2 : listChoice (rand k) available < numChannels :=
            List.mem_range.mp hspec.1
          have hnotex : listChoice (rand k) available ∉ existing := by
            have := hspec.2
            rw [Bool.and_eq_true, decide_eq_true_iff, decide_eq_true_iff] at this
            exact this.1
          rw [hy3]
          exact hrange _ hlt2 hnotex
    · rw [if_neg hlt] at hx
      exact hres x hx

/-- Master invariant for `resolveConflicts`: its output satisfies any
predicate `P` holding on unreserved in-range slots and on candidate slots
outside `existing`. -/
lemma resolveConflicts_inv (numChannels : Nat) (rand : Nat → Nat) (existing new : List Nat)
    (P : Nat → Prop)
    (hrange : ∀ c, c < numChannels → c ∉ existing → P c)
    (hnew : ∀ ch ∈ new, ch ∉ existing → P ch) :
    ∀ x ∈ resolveConflicts numChannels rand existing new, P x := by
  intro x hx
  rw [resolveConflicts] at hx
  set conflict := new.filter (fun ch => decide (ch ∈ existing)) with hconf
  by_cases he : conflict.isEmpty
  · rw [if_pos he] at hx
    have hc : conflict = [] := List.isEmpty_iff.mp he
    refine hnew x hx ?_
    intro hex
    have : x ∈ conflict := by
      rw [hconf]
      exact List.mem_filter.mpr ⟨hx, decide_eq_true hex⟩
    rw [hc] at this
    exact (List.not_mem_nil x) this
  · rw [if_neg he] at hx
    have hnc : ∀ ch ∈ new, ch ∉ conflict → P ch := by
      intro ch hch hncf
      refine hnew ch hch ?_
      intro hex
      exact hncf (by
        rw [hconf]
        exact List.mem_filter.mpr ⟨hch, decide_eq_true hex⟩)
    have hsortmem : x ∈ (fillLoop numChannels new.length existing rand new.length
        (new.foldl (resolveStep numChannels existing conflict rand) ([], 0)).2
        (new.foldl (resolveStep numChannels existing conflict rand) ([], 0)).1).take new.length := by
      have hperm := List.perm_insertionSort (α := Nat) (· ≤ ·)
        ((fillLoop numChannels new.length existing rand new.length
          (new.foldl (resolveStep numChannels existing conflict rand) ([], 0)).2
          (new.foldl (resolveStep numChannels existing conflict rand) ([], 0)).1).take new.length)
      exact hperm.mem_iff.mp hx
    have hfill : ∀ y ∈ fillLoop numChannels new.length existing rand new.length
        (new.foldl (resolveStep numChannels existing conflict rand) ([], 0)).2
        (new.foldl (resolveStep numChannels existing conflict rand) ([], 0)).1, P y := by
      refine fillLoop_inv numChannels new.length existing rand P hrange _ _ _ ?_
      intro y hy
      exact resolveStep_fold_inv numChannels existing conflict rand P hrange new hnc
        [] 0 (by intro z hz; exact absurd hz (List.not_mem_nil z)) y hy
    exact hfill x (List.mem_of_mem_take hsortmem)

/-- Finalized slots of one station never reuse a reserved slot. -/
lemma resolveConflicts_avoid (numChannels : Nat) (rand : Nat → Nat) (existing new : List Nat) :
    ∀ x ∈ resolveConflicts numChannels rand existing new, x ∉ existing := by
  exact resolveConflicts_inv numChannels rand existing new (fun c => c ∉ existing)
    (fun _ _ h => h) (fun _ _ h => h)

/-- Finalized slots are either candidate slots or in-range replacements. -/
lemma resolveConflicts_range (numChannels : Nat) (rand : Nat → Nat) (existing new : List Nat) :
    ∀ x ∈ resolveConflicts numChannels rand existing new, x ∈ new ∨ x < numChannels := by
  exact resolveConflicts_inv numChannels rand existing new
    (fun c => c ∈ new ∨ c < numChannels)
    (fun _ hc _ => Or.inr hc) (fun _ hc _ => Or.inl hc)

/-- The resolution pass keeps every produced station set away from the
incoming reservation and pairwise disjoint. -/
lemma resolveAllAux_spec (numChannels : Nat) (rand : Nat → Nat → Nat) :
    ∀ (sels : List (List Nat)) (i : Nat) (existing : List Nat),
      (∀ r ∈ resolveAllAux numChannels rand i existing sels, ∀ x ∈ r, x ∉ existing) ∧
      List.Pairwise (fun A B => ∀ x ∈ A, x ∉ B)
        (resolveAllAux numChannels rand i existing sels) := by
  intro sels
  induction sels with
  | nil =>
    intro i existing
    constructor
    · intro r hr
      exact absurd hr (List.not_mem_nil r)
    · exact List.Pairwise.nil
  | cons sel rest ih =>
    intro i existing
    have hr0 := resolveConflicts_avoid numChannels (rand i) existing sel
    have htail := ih (i + 1) (existing ++ resolveConflicts numChannels (rand i) existing sel)
    constructor
    · intro r hr
      rw [resolveAllAux] at hr
      rcases List.mem_cons.mp hr with hr1 | hr2
      · intro x hx
        rw [hr1] at hx
        exact hr0 x hx
      · intro x hx
        have := htail.1 r hr2 x hx
        intro hex
        exact this (List.mem_append_left _ hex)
    · rw [resolveAllAux]
      refine List.Pairwise.cons ?_ htail.2
      intro B hB x hx
      intro hxB
      have := htail.1 B hB x hxB
      exact this (List.mem_append_right _ hx)

/-- Claim C1: in every round, the final allocation produced by the
sequential conflict resolver is pairwise disjoint across stations — each
station's finalized set only contains slots outside the running reserved
set of all earlier stations, so for any two distinct stations the
allocated slot sets share no slot. -/
theorem resolveAll_pairwise_disjoint (numChannels : Nat) (rand : Nat → Nat → Nat)
    (sels : List (List Nat)) :
    List.Pairwise (fun A B => ∀ x ∈ A, x ∉ B) (resolveAll numChannels rand sels) := by
  exact (resolveAllAux_spec numChannels rand sels 0 []).2

/-- Concrete instance of claim C1 at a conflicting pair of proposals. -/
theorem resolveAll_pairwise_disjoint_inst :
    List.Pairwise (fun A B => ∀ x ∈ A, x ∉ B)
      (resolveAll 4 (fun _ _ => 0) [[0, 1], [0, 2]]) := by
  exact resolveAll_pairwise_disjoint 4 (fun _ _ => 0) [[0, 1], [0, 2]]

/-- When the candidate set shares no slot with the reserved set, the
conflict branch is never entered and the candidate list is returned
verbatim (TDMAv7.py lines 376-378). -/
lemma resolveConflicts_of_disjoint (numChannels : Nat) (rand : Nat → Nat)
    (existing new : List Nat) (h : ∀ x ∈ new, x ∉ existing) :
    resolveConflicts numChannels rand existing new = new := by
  have hc : new.filter (fun ch => decide (ch ∈ existing)) = [] := by
    rw [List.filter_eq_nil_iff]
    intro a ha
    simp only [decide_eq_true_iff]
    exact h a ha
  rw [resolveConflicts]
  simp [hc]

/-- Claim C10: whenever a station's candidate set shares no slot with the
already-reserved set, the conflict resolver returns the candidate list
completely unchanged — same elements, same order, no re-sorting and no
truncation; in particular the first station's validated set always
becomes its final allocation verbatim. -/
theorem resolveConflicts_no_conflict_identity (numChannels : Nat) (rand : Nat → Nat → Nat)
    (existing new : List Nat) (rest : List (List Nat))
    (h : ∀ x ∈ new, x ∉ existing) :
    resolveConflicts numChannels (rand 0) existing new = new ∧
    (resolveAll numChannels rand (new :: rest)).head? = some new := by
  constructor
  · exact resolveConflicts_of_disjoint numChannels (rand 0) existing new h
  · simp only [resolveAll, resolveAllAux, List.head?]
    exact congrArg some
      (resolveConflicts_of_disjoint numChannels (rand 0) [] new
        (fun x _ => List.not_mem_nil x))

/-- Concrete instance of claim C10. -/
theorem resolveConflicts_no_conflict_identity_inst :
    resolveConflicts 4 (fun _ => 0) [3] [0, 1] = [0, 1] ∧
    (resolveAll 4 (fun _ _ => 0) [[0, 1], [2]]).head? = some [0, 1] := by
  exact resolveConflicts_no_conflict_identity 4 (fun _ _ => 0) [3] [0, 1] [[2]] (by decide)

/-- `len(set(all_slots))` over the station slot lists handed to
`EnhancedChannelPool.get_feedback` (TDMAv7.py lines 67-91). -/
def usedCount (apSlots : List (List Nat)) : Nat :=
  apSlots.flatten.dedup.length

/-- The `utilization.rate` field of `get_feedback`:
`len(set(all_slots)) / len(self.available)` (TDMAv7.py line 88). -/
def utilizationRate (numChannels : Nat) (apSlots : List (List Nat)) : ℚ :=
  (usedCount apSlots : ℚ) / (numChannels : ℚ)

/-- The `conflict.slots` field of `get_feedback` (TDMAv7.py line 76):
slots claimed by more than one (station, occurrence) entry. -/
def conflictSlots (apSlots : List (List Nat)) : List Nat :=
  apSlots.flatten.dedup.filter (fun ch => decide (2 ≤ apSlots.flatten.count ch))

/-- `FeedbackCoordinator._check_success` (TDMAv7.py lines 335-340): full
coverage of the slot domain and an empty conflict list in the round's
feedback (both computed from the final allocation). -/
def checkSuccess (numChannels : Nat) (apSlots : List (List Nat)) : Bool :=
  (usedCount apSlots == numChannels) && (conflictSlots apSlots).isEmpty

/-- Counterexample to claim C6: with numSlots = 4 and validated sets
[0,1], [2,3], [0,2] of size 2 each (total demand 6 > 4), resolution
leaves station 3 empty while the first two stations cover all four
slots, so the round's utilization rate equals 1.0 — not strictly less
than 1.0 — and the round passes the success check. -/
theorem oversubscribed_success_cex :
    resolveAll 4 (fun _ _ => 0) [[0, 1], [2, 3], [0, 2]] = [[0, 1], [2, 3], []] ∧
    utilizationRate 4 [[0, 1], [2, 3], []] = 1 ∧
    checkSuccess 4 [[0, 1], [2, 3], []] = true := by
  refine ⟨by decide, ?_, by decide⟩
  have h : usedCount [[0, 1], [2, 3], []] = 4 := by decide
  rw [utilizationRate, h]
  norm_num

/-- Claim C6 (amended): for numSlots = 4 and three stations with
validated candidate sets of size 2 each, after sequential resolution the
number of distinct claimed slots is at most 4 and at least one station
ends up with fewer distinct slots than the 2 it requested; however the
utilization rate need not be below 1.0 and the round can pass the
success check (see the counterexample). -/
theorem oversubscribed_shortfall (rand : Nat → Nat → Nat) (s1 s2 s3 : List Nat)
    (h1 : s1.length = 2) (h2 : s2.length = 2) (h3 : s3.length = 2)
    (hr1 : ∀ x ∈ s1, x < 4) (hr2 : ∀ x ∈ s2, x < 4) (hr3 : ∀ x ∈ s3, x < 4) :
    usedCount (resolveAll 4 rand [s1, s2, s3]) ≤ 4 ∧
    ∃ f ∈ resolveAll 4 rand [s1, s2, s3], f.dedup.length < 2 := by
  have hunfold : resolveAll 4 rand [s1, s2, s3] =
      [resolveConflicts 4 (rand 0) [] s1,
       resolveConflicts 4 (rand 1) ([] ++ resolveConflicts 4 (rand 0) [] s1) s2,
       resolveConflicts 4 (rand 2)
         (([] ++ resolveConflicts 4 (rand 0) [] s1) ++
           resolveConflicts 4 (rand 1) ([] ++ resolveConflicts 4 (rand 0) [] s1) s2) s3] := rfl
  set r1 := resolveConflicts 4 (rand 0) [] s1 with hr1def
  set r2 := resolveConflicts 4 (rand 1) ([] ++ r1) s2 with hr2def
  set r3 := resolveConflicts 4 (rand 2) (([] ++ r1) ++ r2) s3 with hr3def
  have hb1 : ∀ x ∈ r1, x < 4 := by
    intro x hx
    rcases resolveConflicts_range 4 (rand 0) [] s1 x hx with hin | hlt
    · exact hr1 x hin
    · exact hlt
  have hb2 : ∀ x ∈ r2, x < 4 := by
    intro x hx
    rcases resolveConflicts_range 4 (rand 1) ([] ++ r1) s2 x hx with hin | hlt
    · exact hr2 x hin
    · exact hlt
  have hb3 : ∀ x ∈ r3, x < 4 := by
    intro x hx
    rcases resolveConflicts_range 4 (rand 2) (([] ++ r1) ++ r2) s3 x hx with hin | hlt
    · exact hr3 x hin
    · exact hlt
  have hd21 : ∀ x ∈ r2, x ∉ r1 := by
    intro x hx hmem
    exact resolveConflicts_avoid 4 (rand 1) ([] ++ r1) s2 x hx (List.mem_append_right [] hmem)
  have hd31 : ∀ x ∈ r3, x ∉ r1 := by
    intro x hx hmem
    exact resolveConflicts_avoid 4 (rand 2) (([] ++ r1) ++ r2) s3 x hx
      (List.mem_append_left r2 (List.mem_append_right [] hmem))
  have hd32 : ∀ x ∈ r3, x ∉ r2 := by
    intro x hx hmem
    exact resolveConflicts_avoid 4 (rand 2) (([] ++ r1) ++ r2) s3 x hx
      (List.mem_append_right ([] ++ r1) hmem)
  have hdisj12 : Disjoint r1.toFinset r2.toFinset := by
    rw [Finset.disjoint_right]
    intro a ha ha1
    exact hd21 a (List.mem_toFinset.mp ha) (List.mem_toFinset.mp ha1)
  have hdisj3 : Disjoint (r1.toFinset ∪ r2.toFinset) r3.toFinset := by
    rw [Finset.disjoint_right]
    intro a ha ha12
    rcases Finset.mem_union.mp ha12 with h1m | h2m
    · exact hd31 a (List.mem_toFinset.mp ha) (List.mem_toFinset.mp h1m)
    · exact hd32 a (List.mem_toFinset.mp ha) (List.mem_toFinset.mp h2m)
  have hsub : r1.toFinset ∪ r2.toFinset ∪ r3.toFinset ⊆ Finset.range 4 := by
    intro a ha
    rw [Finset.mem_range]
    rcases Finset.mem_union.mp ha with h12 | hm3
    · rcases Finset.mem_union.mp h12 with hm1 | hm2
      · exact hb1 a (List.mem_toFinset.mp hm1)
      · exact hb2 a (List.mem_toFinset.mp hm2)
    · exact hb3 a (List.mem_toFinset.mp hm3)
  have hcard : (r1.toFinset ∪ r2.toFinset ∪ r3.toFinset).card =
      r1.toFinset.card + r2.toFinset.card + r3.toFinset.card := by
    rw [Finset.card_union_of_disjoint hdisj3, Finset.card_union_of_disjoint hdisj12]
  have hle4 : (r1.toFinset ∪ r2.toFinset ∪ r3.toFinset).card ≤ 4 := by
    have := Finset.card_le_card hsub
    rwa [Finset.card_range] at this
  have hflat : (resolveAll 4 rand [s1, s2, s3]).flatten.toFinset =
      r1.toFinset ∪ r2.toFinset ∪ r3.toFinset := by
    rw [hunfold]
    simp [List.toFinset_append, Finset.union_assoc]
  constructor
  · rw [usedCount, ← List.card_toFinset, hflat]
    exact hle4
  · by_contra hno
    push_neg at hno
    rw [hunfold] at hno
    have hc1 : 2 ≤ r1.toFinset.card := by
      rw [List.card_toFinset]
      exact hno r1 (by simp)
    have hc2 : 2 ≤ r2.toFinset.card := by
      rw [List.card_toFinset]
      exact hno r2 (by simp)
    have hc3 : 2 ≤ r3.toFinset.card := by
      rw [List.card_toFinset]
      exact hno r3 (by simp)
    omega

/-- Concrete instance of claim C6 (amended). -/
theorem oversubscribed_shortfall_inst :
    usedCount (resolveAll 4 (fun _ _ => 0) [[0, 1], [2, 3], [0, 2]]) ≤ 4 ∧
    ∃ f ∈ resolveAll 4 (fun _ _ => 0) [[0, 1], [2, 3], [0, 2]], f.dedup.length < 2 := by
  exact oversubscribed_shortfall (fun _ _ => 0) [0, 1] [2, 3] [0, 2]
    (by decide) (by decide) (by decide) (by decide) (by decide) (by decide)

/-- Python `round()` applied to the exact rational `num / den` (for
`den > 0`): round half to even.  The floating-point products of
`_generate_demand` are modelled as exact rationals, written with integer
arithmetic so that concrete instances evaluate. -/
def pyRound (num den : ℤ) : ℤ :=
  if 2 * (num - Int.fdiv num den * den) < den then Int.fdiv num den
  else if den < 2 * (num - Int.fdiv num den * den) then Int.fdiv num den + 1
  else if Int.fdiv num den % 2 = 0 then Int.fdiv num den else Int.fdiv num den + 1

/-- The rounding-drift correction loop of `_generate_demand`
(TDMAv7.py lines 254-261): while the additions do not sum to the
remainder, a random station's addition is incremented, or decremented
when positive.  One `randint` draw is consumed per pass; `none` models
fuel exhaustion (the Python loop not yet finished). -/
def underAdjust (remainder : ℤ) (numAps : Nat) (rand : Nat → Nat) :
    Nat → Nat → List ℤ → Option (List ℤ)
  | 0, _, additions => if additions.sum = remainder then some additions else none
  | fuel + 1, k, additions =>
    if additions.sum = remainder then some additions
    else if additions.sum < remainder then
      underAdjust remainder numAps rand fuel (k + 1)
        (additions.set (rand k % numAps) (additions.getD (rand k % numAps) 0 + 1))
    else if 0 < additions.getD (rand k % numAps) 0 then
      underAdjust remainder numAps rand fuel (k + 1)
        (additions.set (rand k % numAps) (additions.getD (rand k % numAps) 0 - 1))
    else underAdjust remainder numAps rand fuel (k + 1) additions

/-- The secondary adjustment loop of the over-subscribed branch of
`_generate_demand` (TDMAv7.py lines 276-280): `abs(diff)` passes, each
adding `step` (which is +1 or -1) to a random station's value, with no
minimum-1 guard. -/
def overAdjust (numAps : Nat) (step : ℤ) (rand : Nat → Nat) :
    Nat → Nat → List ℤ → List ℤ
  | 0, _, scaled => scaled
  | n + 1, k, scaled =>
    overAdjust numAps step rand n (k + 1)
      (scaled.set (rand k % numAps) (scaled.getD (rand k % numAps) 0 + step))

/-- The proportionally scaled-down vector of the over-subscribed branch
(TDMAv7.py line 272): `max(1, round(b * numChannels / total))` per base
value. -/
def scaledDemand (numChannels : Nat) (base : List ℤ) : List ℤ :=
  base.map (fun b => max 1 (pyRound (b * (numChannels : ℤ)) base.sum))

/-- `FeedbackCoordinator._generate_demand` (TDMAv7.py lines 242-282) for
one draw of base values.  In the under-subscribed branch the remainder is
distributed proportionally with rounding, then drift-corrected; in the
over-subscribed branch the values are scaled down with a minimum of 1 and
then drift-corrected without any minimum guard.  The final sum re-check of
the under branch returns `none` where Python would redraw the base. -/
def generateDemand (numChannels : Nat) (rand : Nat → Nat) (fuel : Nat) (base : List ℤ) :
    Option (List ℤ) :=
  if base.sum ≤ (numChannels : ℤ) then
    match underAdjust ((numChannels : ℤ) - base.sum) base.length rand fuel 0
        (base.map (fun b => pyRound (((numChannels : ℤ) - base.sum) * b) base.sum)) with
    | none => none
    | some adds =>
      if (List.zipWith (fun a b => a + b) base adds).sum = (numChannels : ℤ)
      then some (List.zipWith (fun a b => a + b) base adds) else none
  else
    some (overAdjust base.length
      (if 0 < (numChannels : ℤ) - (scaledDemand numChannels base).sum then 1 else -1)
      rand ((numChannels : ℤ) - (scaledDemand numChannels base).sum).natAbs 0
      (scaledDemand numChannels base))

lemma getD_int_nonneg (l : List ℤ) (i : Nat) (h : ∀ x ∈ l, 0 ≤ x) : 0 ≤ l.getD i 0 := by
  by_cases hi : i < l.length
  · rw [List.getD_eq_getElem l 0 hi]
    exact h _ (List.getElem_mem hi)
  · rw [List.getD_eq_getElem?_getD, List.getElem?_eq_none (le_of_not_lt hi)]
    exact le_refl 0

lemma set_int_nonneg (l : List ℤ) (i : Nat) (a : ℤ) (ha : 0 ≤ a) (h : ∀ x ∈ l, 0 ≤ x) :
    ∀ x ∈ l.set i a, 0 ≤ x := by
  intro x hx
  rcases List.mem_or_eq_of_mem_set hx with hm | he
  · exact h x hm
  · rw [he]
    exact ha

lemma sum_set_getD (l : List ℤ) (i : Nat) (a : ℤ) (h : i < l.length) :
    (l.set i a).sum = l.sum - l.getD i 0 + a := by
  induction l generalizing i with
  | nil => simp at h
  | cons x t ih =>
    cases i with
    | zero =>
      simp only [List.set_cons_zero, List.sum_cons, List.getD_cons_zero]
      ring
    | succ n =>
      simp only [List.set_cons_succ, List.sum_cons, List.getD_cons_succ]
      rw [ih n (by simpa using h)]
      ring

/-- The drift-correction loop of the under-subscribed branch returns a
vector of the same length, the requested sum, and nonnegative entries. -/
lemma underAdjust_spec (remainder : ℤ) (numAps : Nat) (rand : Nat → Nat) :
    ∀ fuel k additions adds,
      (∀ x ∈ additions, 0 ≤ x) →
      underAdjust remainder numAps rand fuel k additions = some adds →
      adds.sum = remainder ∧ adds.length = additions.length ∧ ∀ x ∈ adds, 0 ≤ x := by
  intro fuel
  induction fuel with
  | zero =>
    intro k additions adds hnn h
    rw [underAdjust] at h
    by_cases hs : additions.sum = remainder
    · rw [if_pos hs] at h
      injection h with h
      subst h
      exact ⟨hs, rfl, hnn⟩
    · rw [if_neg hs] at h
      exact absurd h (by simp)
  | succ n ih =>
    intro k additions adds hnn h
    rw [underAdjust] at h
    by_cases hs : additions.sum = remainder
    · rw [if_pos hs] at h
      injection h with h
      subst h
      exact ⟨hs, rfl, hnn⟩
    · rw [if_neg hs] at h
      by_cases hlt : additions.sum < remainder
      · rw [if_pos hlt] at h
        have hnn2 : ∀ x ∈ additions.set (rand k % numAps)
            (additions.getD (rand k % numAps) 0 + 1), 0 ≤ x := by
          refine set_int_nonneg _ _ _ ?_ hnn
          have := getD_int_nonneg additions (rand k % numAps) hnn
          omega
        obtain ⟨h1, h2, h3⟩ := ih (k + 1) _ adds hnn2 h
        exact ⟨h1, h2.trans (List.length_set _ _ _), h3⟩
      · rw [if_neg hlt] at h
        by_cases hpos : 0 < additions.getD (rand k % numAps) 0
        · rw [if_pos hpos] at h
          have hnn2 : ∀ x ∈ additions.set (rand k % numAps)
              (additions.getD (rand k % numAps) 0 - 1), 0 ≤ x := by
            refine set_int_nonneg _ _ _ ?_ hnn
            omega
          obtain ⟨h1, h2, h3⟩ := ih (k + 1) _ adds hnn2 h
          exact ⟨h1, h2.trans (List.length_set _ _ _), h3⟩
        · rw [if_neg hpos] at h
          exact ih (k + 1) additions adds hnn h

/-- The over-subscribed drift loop: length is preserved and each of the
`n` passes adds exactly `step` to the total. -/
lemma overAdjust_spec (numAps : Nat) (step : ℤ) (rand : Nat → Nat) (hpos : 0 < numAps) :
    ∀ n k scaled, scaled.length = numAps →
      (overAdjust numAps step rand n k scaled).length = numAps ∧
      (overAdjust numAps step rand n k scaled).sum = scaled.sum + n * step := by
  intro n
  induction n with
  | zero =>
    intro k scaled hlen
    rw [overAdjust]
    simpa using hlen
  | succ m ih =>
    intro k scaled hlen
    rw [overAdjust]
    have hidx : rand k % numAps < scaled.length := by
      rw [hlen]
      exact Nat.mod_lt _ hpos
    obtain ⟨h1, h2⟩ := ih (k + 1)
      (scaled.set (rand k % numAps) (scaled.getD (rand k % numAps) 0 + step))
      ((List.length_set _ _ _).trans hlen)
    refine ⟨h1, ?_⟩
    rw [h2, sum_set_getD _ _ _ hidx]
    push_cast
    ring

lemma zipWith_add_sum : ∀ (l1 l2 : List ℤ), l1.length = l2.length →
    (List.zipWith (fun a b => a + b) l1 l2).sum = l1.sum + l2.sum := by
  intro l1
  induction l1 with
  | nil =>
    intro l2 h
    rw [List.length_nil] at h
    rw [List.length_eq_zero.mp h.symm]
    simp
  | cons x t ih =>
    intro l2 h
    cases l2 with
    | nil => simp at h
    | cons y s =>
      simp only [List.zipWith_cons_cons, List.sum_cons]
      rw [ih s (by simpa using h)]
      ring

lemma zipWith_add_one_le : ∀ (l1 l2 : List ℤ), (∀ x ∈ l1, 1 ≤ x) → (∀ x ∈ l2, 0 ≤ x) →
    ∀ x ∈ List.zipWith (fun a b => a + b) l1 l2, 1 ≤ x := by
  intro l1
  induction l1 with
  | nil =>
    intro l2 _ _ x hx
    simp at hx
  | cons a t ih =>
    intro l2 h1 h2 x hx
    cases l2 with
    | nil => simp at hx
    | cons b s =>
      rw [List.zipWith_cons_cons] at hx
      rcases List.mem_cons.mp hx with he | hm
      · have ha : 1 ≤ a := h1 a (List.mem_cons_self _ _)
        have hb : 0 ≤ b := h2 b (List.mem_cons_self _ _)
        rw [he]
        omega
      · exact ih s (fun y hy => h1 y (List.mem_cons_of_mem _ hy))
          (fun y hy => h2 y (List.mem_cons_of_mem _ hy)) x hm

lemma pyRound_nonneg (num den : ℤ) (hnum : 0 ≤ num) (hden : 0 ≤ den) :
    0 ≤ pyRound num den := by
  have hf : 0 ≤ Int.fdiv num den := Int.fdiv_nonneg hnum hden
  rw [pyRound]
  split_ifs <;> omega

lemma sum_int_nonneg : ∀ (l : List ℤ), (∀ x ∈ l, 0 ≤ x) → 0 ≤ l.sum := by
  intro l
  induction l with
  | nil =>
    intro _
    simp
  | cons x t ih =>
    intro h
    rw [List.sum_cons]
    have hx : 0 ≤ x := h x (List.mem_cons_self _ _)
    have ht : 0 ≤ t.sum := ih (fun y hy => h y (List.mem_cons_of_mem _ hy))
    omega

/-- Counterexample to claim C2: with numStations = 2 ≤ numSlots = 2 and
base draw [1, 4], the over-subscribed branch scales to [1, 2] (sum 3) and
the drift-correction pass decrements station 1 to 0, returning the demand
[0, 2] whose first value is below the claimed minimum of 1. -/
theorem generateDemand_min_one_cex :
    generateDemand 2 (fun _ => 0) 10 [1, 4] = some [0, 2] ∧
    ¬ (∀ x ∈ [(0 : ℤ), 2], 1 ≤ x) := by
  constructor
  · decide
  · decide

/-- Claim C2 (amended): for any base draw of values ≥ 1 over a nonempty
station list, whenever `_generate_demand` returns, the result has one
entry per station and sums exactly to numSlots; the values are all ≥ 1 in
the under-subscribed branch (base sum ≤ numSlots), but the over-subscribed
branch's drift correction can push a value below 1 (see the
counterexample). -/
theorem generateDemand_conservation (numChannels : Nat) (rand : Nat → Nat) (fuel : Nat)
    (base d : List ℤ)
    (hbase : ∀ b ∈ base, 1 ≤ b) (hne : base ≠ [])
    (h : generateDemand numChannels rand fuel base = some d) :
    d.length = base.length ∧ d.sum = (numChannels : ℤ) ∧
    (base.sum ≤ (numChannels : ℤ) → ∀ x ∈ d, 1 ≤ x) := by
  have hnn0 : 0 ≤ base.sum :=
    sum_int_nonneg base (fun x hx => le_trans zero_le_one (hbase x hx))
  rw [generateDemand] at h
  by_cases hle : base.sum ≤ (numChannels : ℤ)
  · rw [if_pos hle] at h
    have haddnn : ∀ x ∈ base.map
        (fun b => pyRound (((numChannels : ℤ) - base.sum) * b) base.sum), 0 ≤ x := by
      intro x hx
      obtain ⟨b, hb, hbx⟩ := List.mem_map.mp hx
      rw [← hbx]
      refine pyRound_nonneg _ _ ?_ hnn0
      have h1b : 1 ≤ b := hbase b hb
      have hrem : 0 ≤ (numChannels : ℤ) - base.sum := by omega
      exact mul_nonneg hrem (by omega)
    cases hmatch : underAdjust ((numChannels : ℤ) - base.sum) base.length rand fuel 0
        (base.map (fun b => pyRound (((numChannels : ℤ) - base.sum) * b) base.sum)) with
    | none =>
      rw [hmatch] at h
      exact absurd h (by simp)
    | some adds =>
      rw [hmatch] at h
      have hred : (if (List.zipWith (fun a b => a + b) base adds).sum = (numChannels : ℤ)
          then some (List.zipWith (fun a b => a + b) base adds) else none) = some d := h
      obtain ⟨hsum, hlen, hnn⟩ :=
        underAdjust_spec ((numChannels : ℤ) - base.sum) base.length rand fuel 0 _ adds
          haddnn hmatch
      have hlen2 : adds.length = base.length := by
        rw [hlen, List.length_map]
      by_cases hck : (List.zipWith (fun a b => a + b) base adds).sum = (numChannels : ℤ)
      · rw [if_pos hck] at hred
        injection hred with hred
        subst hred
        refine ⟨?_, hck, ?_⟩
        · rw [List.length_zipWith, hlen2]
          exact Nat.min_self _
        · intro _
          exact zipWith_add_one_le base adds hbase hnn
      · rw [if_neg hck] at hred
        exact absurd hred (by simp)
  · rw [if_neg hle] at h
    injection h with h
    have hlenb : 0 < base.length := List.length_pos.mpr hne
    have hslen : (scaledDemand numChannels base).length = base.length := List.length_map _ _
    obtain ⟨h1, h2⟩ := overAdjust_spec base.length
      (if 0 < (numChannels : ℤ) - (scaledDemand numChannels base).sum then 1 else -1)
      rand hlenb ((numChannels : ℤ) - (scaledDemand numChannels base).sum).natAbs 0
      (scaledDemand numChannels base) hslen
    subst h
    refine ⟨h1.trans hslen.symm ▸ h1, ?_, ?_⟩
    · rw [h2]
      rcases lt_or_le 0 ((numChannels : ℤ) - (scaledDemand numChannels base).sum) with hd | hd
      · rw [if_pos hd, Int.natAbs_of_nonneg (le_of_lt hd)]
        ring_nf
      · rw [if_neg (not_lt.mpr hd), Int.ofNat_natAbs_of_nonpos hd]
        ring_nf
    · intro hc
      exact absurd hc hle

/-- Concrete instance of claim C2 (amended) on the under-subscribed
branch: base [1, 1] with numSlots 4 yields the demand [2, 2]. -/
theorem generateDemand_conservation_inst :
    ([(2 : ℤ), 2].length = [(1 : ℤ), 1].length) ∧ ([(2 : ℤ), 2].sum = ((4 : Nat) : ℤ)) ∧
    ([(1 : ℤ), 1].sum ≤ ((4 : Nat) : ℤ) → ∀ x ∈ [(2 : ℤ), 2], 1 ≤ x) := by
  exact generateDemand_conservation 4 (fun _ => 0) 10 [1, 1] [2, 2]
    (by decide) (by decide) (by decide)

/-- `random.sample(pop, k)` drawing `k` elements without replacement,
driven by the random stream; `none` models the `ValueError` Python raises
when `k` exceeds the population size. -/
def pySample (rand : Nat → Nat) : List ℤ → Nat → Nat → Option (List ℤ)
  | _, 0, _ => some []
  | pop, k + 1, step =>
    if pop.isEmpty then none
    else
      match pySample rand (pop.eraseIdx (rand step % pop.length)) k (step + 1) with
      | none => none
      | some rest => some (pop.getD (rand step % pop.length) 0 :: rest)

/-- The range filter of `_validate_channels` (TDMAv7.py line 314):
`[ch for ch in channels if 0 <= ch < self.num_channels]`. -/
def validSlots (numChannels : Nat) (channels : List ℤ) : List ℤ :=
  channels.filter (fun ch => decide (0 ≤ ch) && decide (ch < (numChannels : ℤ)))

/-- `FeedbackCoordinator._validate_channels(channels, agent)` (TDMAv7.py
lines 311-322): keep the in-range entries, refill a shortfall with a
random sample of the unused domain (which raises when the demand exceeds
the available slots), truncate to `expected` and sort. -/
def validate_channels (numChannels expected : Nat) (rand : Nat → Nat) (channels : List ℤ) :
    Option (List ℤ) :=
  if (validSlots numChannels channels).length < expected then
    match pySample rand
        (((List.range numChannels).map (fun n => Int.ofNat n)).filter
          (fun c => decide (c ∉ validSlots numChannels channels)))
        (expected - (validSlots numChannels channels).length) 0 with
    | none => none
    | some extra =>
      some (List.insertionSort (fun a b => a ≤ b)
        ((validSlots numChannels channels ++ extra).take expected))
  else
    some (List.insertionSort (fun a b => a ≤ b)
      ((validSlots numChannels channels).take expected))

lemma getD_not_mem_eraseIdx : ∀ (l : List ℤ) (i : Nat), i < l.length → l.Nodup →
    l.getD i 0 ∉ l.eraseIdx i := by
  intro l
  induction l with
  | nil =>
    intro i hi
    simp at hi
  | cons x t ih =>
    intro i hi hnd
    cases i with
    | zero =>
      simp only [List.getD_cons_zero, List.eraseIdx_cons_zero]
      exact (List.nodup_cons.mp hnd).1
    | succ n =>
      simp only [List.getD_cons_succ, List.eraseIdx_cons_succ]
      intro hmem
      rcases List.mem_cons.mp hmem with he | hm
      · have hn : n < t.length := by simpa using hi
        have hmt : t.getD n 0 ∈ t := by
          rw [List.getD_eq_getElem t 0 hn]
          exact List.getElem_mem hn
        rw [he] at hmt
        exact (List.nodup_cons.mp hnd).1 hmt
      · exact ih n (by simpa using hi) (List.nodup_cons.mp hnd).2 hm

/-- A sample of `k ≤ |pop|` elements succeeds and returns `k` elements of
the population, without duplicates when the population has none. -/
lemma pySample_spec (rand : Nat → Nat) :
    ∀ (k : Nat) (pop : List ℤ) (step : Nat), k ≤ pop.length →
      ∃ l, pySample rand pop k step = some l ∧ l.length = k ∧ (∀ x ∈ l, x ∈ pop) ∧
        (pop.Nodup → l.Nodup) := by
  intro k
  induction k with
  | zero =>
    intro pop step _
    refine ⟨[], rfl, rfl, ?_, fun _ => List.nodup_nil⟩
    intro x hx
    exact absurd hx (List.not_mem_nil x)
  | succ n ih =>
    intro pop step hk
    have hne : pop ≠ [] := by
      intro h0
      rw [h0] at hk
      simp at hk
    have hnE : ¬ (pop.isEmpty = true) := by
      intro hT
      exact hne (List.isEmpty_iff.mp hT)
    have hidx : rand step % pop.length < pop.length :=
      Nat.mod_lt _ (List.length_pos.mpr hne)
    have hlen : (pop.eraseIdx (rand step % pop.length)).length = pop.length - 1 := by
      rw [List.length_eraseIdx]
      simp [hidx]
    have hk2 : n ≤ (pop.eraseIdx (rand step % pop.length)).length := by
      rw [hlen]
      omega
    obtain ⟨rest, hrest, hrl, hrm, hrn⟩ := ih (pop.eraseIdx (rand step % pop.length)) (step + 1) hk2
    refine ⟨pop.getD (rand step % pop.length) 0 :: rest, ?_, ?_, ?_, ?_⟩
    · rw [pySample, if_neg hnE, hrest]
    · simp [hrl]
    · intro x hx
      rcases List.mem_cons.mp hx with he | hm
      · rw [he, List.getD_eq_getElem pop 0 hidx]
        exact List.getElem_mem hidx
      · exact (List.eraseIdx_sublist pop (rand step % pop.length)).subset (hrm x hm)
    · intro hnd
      rw [List.nodup_cons]
      constructor
      · intro hmem
        exact getD_not_mem_eraseIdx pop (rand step % pop.length) hidx hnd (hrm _ hmem)
      · exact hrn ((List.eraseIdx_sublist pop (rand step % pop.length)).nodup hnd)

/-- Counterexample to claim C3: the validator raises (`random.sample`
ValueError, modelled `none`) when the entitled demand exceeds the slot
domain, and it returns a duplicated — not distinct — result when the raw
input repeats an in-range slot. -/
theorem validate_channels_total_cex :
    validate_channels 2 3 (fun _ => 0) [] = none ∧
    validate_channels 2 2 (fun _ => 0) [1, 1] = some [1, 1] ∧
    ¬ ([(1 : ℤ), 1].Nodup) := by
  refine ⟨by decide, by decide, by decide⟩

/-- Workhorse for the validator totality results: with duplicate-free
in-range entries and a demand of at most numSlots, validation succeeds
with exactly `expected` distinct in-range slots. -/
lemma validate_channels_total_aux (numChannels expected : Nat) (rand : Nat → Nat)
    (channels : List ℤ) (hexp : expected ≤ numChannels)
    (hnd : (validSlots numChannels channels).Nodup) :
    ∃ l, validate_channels numChannels expected rand channels = some l ∧
      l.length = expected ∧ l.Nodup ∧ ∀ x ∈ l, 0 ≤ x ∧ x < (numChannels : ℤ) := by
  have hbound : ∀ x ∈ validSlots numChannels channels, 0 ≤ x ∧ x < (numChannels : ℤ) := by
    intro x hx
    have hfx := (List.mem_filter.mp hx).2
    rw [Bool.and_eq_true, decide_eq_true_iff, decide_eq_true_iff] at hfx
    exact hfx
  by_cases hlt : (validSlots numChannels channels).length < expected
  · set pop := ((List.range numChannels).map (fun n => Int.ofNat n)).filter
      (fun c => decide (c ∉ validSlots numChannels channels)) with hpop
    have hcastinj : Function.Injective (fun n : ℕ => Int.ofNat n) := by
      intro a b hab
      injection hab
    have hrangeNd : ((List.range numChannels).map (fun n => Int.ofNat n)).Nodup :=
      List.Nodup.map hcastinj (List.nodup_range numChannels)
    have hpopNd : pop.Nodup := List.Nodup.filter _ hrangeNd
    have hpopsub : ∀ x ∈ pop,
        (0 ≤ x ∧ x < (numChannels : ℤ)) ∧ x ∉ validSlots numChannels channels := by
      intro x hx
      rw [hpop, List.mem_filter] at hx
      obtain ⟨hx1, hx2⟩ := hx
      rw [decide_eq_true_iff] at hx2
      refine ⟨?_, hx2⟩
      simp only [List.mem_map, List.mem_range] at hx1
      obtain ⟨m, hm, hmx⟩ := hx1
      rw [← hmx]
      constructor
      · exact Int.ofNat_nonneg m
      · rw [Int.ofNat_eq_natCast]
        exact_mod_cast hm
    have hpoplen : expected - (validSlots numChannels channels).length ≤ pop.length := by
      have hfin : pop.toFinset =
          (((List.range numChannels).map (fun n => Int.ofNat n)).toFinset) \
            (validSlots numChannels channels).toFinset := by
        ext a
        rw [hpop]
        simp only [List.mem_toFinset, Finset.mem_sdiff, List.mem_filter, decide_eq_true_iff]
      have h1 : pop.length = pop.toFinset.card := (List.toFinset_card_of_nodup hpopNd).symm
      have h2 : (((List.range numChannels).map (fun n => Int.ofNat n)).toFinset).card = numChannels := by
        rw [List.toFinset_card_of_nodup hrangeNd]
        simp
      have h3 := Finset.le_card_sdiff ((validSlots numChannels channels).toFinset)
        (((List.range numChannels).map (fun n => Int.ofNat n)).toFinset)
      have h4 : (validSlots numChannels channels).toFinset.card ≤
          (validSlots numChannels channels).length := List.toFinset_card_le _
      rw [hfin] at h1
      omega
    obtain ⟨extra, hsome, hel, hemem, hend⟩ := pySample_spec rand
      (expected - (validSlots numChannels channels).length) pop 0 hpoplen
    have hcomblen : (validSlots numChannels channels ++ extra).length = expected := by
      rw [List.length_append, hel]
      omega
    have hcombnd : (validSlots numChannels channels ++ extra).Nodup := by
      refine List.Nodup.append hnd (hend hpopNd) ?_
      intro a ha hae
      exact (hpopsub a (hemem a hae)).2 ha
    have hcombb : ∀ x ∈ validSlots numChannels channels ++ extra,
        0 ≤ x ∧ x < (numChannels : ℤ) := by
      intro x hx
      rcases List.mem_append.mp hx with h | h
      · exact hbound x h
      · exact (hpopsub x (hemem x h)).1
    have htake : (validSlots numChannels channels ++ extra).take expected =
        validSlots numChannels channels ++ extra := by
      apply List.take_of_length_le
      rw [hcomblen]
    refine ⟨List.insertionSort (fun a b => a ≤ b) (validSlots numChannels channels ++ extra),
      ?_, ?_, ?_, ?_⟩
    · rw [validate_channels, if_pos hlt, ← hpop, hsome]
      show some (List.insertionSort (fun a b => a ≤ b)
          ((validSlots numChannels channels ++ extra).take expected)) =
        some (List.insertionSort (fun a b => a ≤ b) (validSlots numChannels channels ++ extra))
      rw [htake]
    · rw [(List.perm_insertionSort _ _).length_eq, hcomblen]
    · exact (List.perm_insertionSort _ _).symm.nodup hcombnd
    · intro x hx
      exact hcombb x ((List.perm_insertionSort _ _).mem_iff.mp hx)
  · have hge : expected ≤ (validSlots numChannels channels).length := le_of_not_lt hlt
    have htl : ((validSlots numChannels channels).take expected).length = expected := by
      rw [List.length_take]
      omega
    refine ⟨List.insertionSort (fun a b => a ≤ b)
      ((validSlots numChannels channels).take expected), ?_, ?_, ?_, ?_⟩
    · rw [validate_channels, if_neg hlt]
    · rw [(List.perm_insertionSort _ _).length_eq, htl]
    · exact (List.perm_insertionSort _ _).symm.nodup
        ((List.take_sublist _ _).nodup hnd)
    · intro x hx
      have hx2 := (List.perm_insertionSort _ _).mem_iff.mp hx
      exact hbound x ((List.take_sublist _ _).subset hx2)

/-- Claim C3 (amended): for raw input whose in-range entries are free of
duplicates and an entitled demand of at most numSlots, the validator
never raises and returns exactly `expected` distinct slot indices inside
[0, numSlots); with in-range duplicates in the raw input or a demand
above the number of available slots this fails (see the counterexample). -/
theorem validate_channels_total_spec (numChannels expected : Nat) (rand : Nat → Nat)
    (channels : List ℤ) (hexp : expected ≤ numChannels)
    (hnd : (validSlots numChannels channels).Nodup) :
    ∃ l, validate_channels numChannels expected rand channels = some l ∧
      l.length = expected ∧ l.Nodup ∧ ∀ x ∈ l, 0 ≤ x ∧ x < (numChannels : ℤ) :=
  validate_channels_total_aux numChannels expected rand channels hexp hnd

/-- Concrete instance of claim C3 (amended): raw input [5, 1] with
numSlots 3 and demand 2 is repaired without raising. -/
theorem validate_channels_total_inst :
    ∃ l, validate_channels 3 2 (fun _ => 0) [5, 1] = some l ∧
      l.length = 2 ∧ l.Nodup ∧ ∀ x ∈ l, 0 ≤ x ∧ x < ((3 : Nat) : ℤ) :=
  validate_channels_total_spec 3 2 (fun _ => 0) [5, 1] (by decide) (by decide)

/-- Claim C7: on an already well-formed input — size equal to the
entitled demand, entries unique and inside [0, numSlots) — the validator
returns exactly that set, unchanged except for ascending sort order. -/
theorem validate_channels_idempotent (numChannels expected : Nat) (rand : Nat → Nat)
    (channels : List ℤ)
    (hlen : channels.length = expected) (hnd : channels.Nodup)
    (hrange : ∀ ch ∈ channels, 0 ≤ ch ∧ ch < (numChannels : ℤ)) :
    validate_channels numChannels expected rand channels =
      some (List.insertionSort (fun a b => a ≤ b) channels) ∧
    (List.insertionSort (fun a b => a ≤ b) channels).Perm channels ∧
    List.Sorted (fun a b : ℤ => a ≤ b) (List.insertionSort (fun a b => a ≤ b) channels) := by
  have hval : validSlots numChannels channels = channels := by
    rw [validSlots, List.filter_eq_self]
    intro a ha
    rw [Bool.and_eq_true, decide_eq_true_iff, decide_eq_true_iff]
    exact ⟨(hrange a ha).1, (hrange a ha).2⟩
  refine ⟨?_, List.perm_insertionSort _ channels, List.sorted_insertionSort _ channels⟩
  rw [validate_channels, hval, hlen, if_neg (lt_irrefl expected), ← hlen, List.take_length]

/-- Concrete instance of claim C7. -/
theorem validate_channels_idempotent_inst :
    validate_channels 3 3 (fun _ => 0) [2, 0, 1] =
      some (List.insertionSort (fun a b => a ≤ b) [2, 0, 1]) ∧
    (List.insertionSort (fun a b => a ≤ b) [(2 : ℤ), 0, 1]).Perm [2, 0, 1] ∧
    List.Sorted (fun a b : ℤ => a ≤ b) (List.insertionSort (fun a b => a ≤ b) [2, 0, 1]) :=
  validate_channels_idempotent 3 3 (fun _ => 0) [2, 0, 1] (by decide) (by decide) (by decide)

/-- The mutable state of `EnhancedChannelPool` (TDMAv7.py lines 38-44):
the slot domain size, the usage heat map and the conflict-history
counters (absent keys are 0, as with `defaultdict(int)`). -/
structure ChannelPool where
  numChannels : Nat
  heatmap : Nat → Nat
  conflictHistory : Nat → Nat

/-- A fresh pool, as built by `EnhancedChannelPool.__init__`. -/
def initPool (numChannels : Nat) : ChannelPool :=
  { numChannels := numChannels, heatmap := fun _ => 0, conflictHistory := fun _ => 0 }

/-- `EnhancedChannelPool.update_stats(*ap_slots)` (TDMAv7.py lines
46-65).  `slot_users[ch]` collects one entry per (station, occurrence)
pair, so a slot whose total multiplicity across the passed lists is ≥ 2
gets one conflict-history increment; every in-domain slot's heat grows by
its total multiplicity (`all_slots.count(ch)`). -/
def update_stats (pool : ChannelPool) (apSlots : List (List Nat)) : ChannelPool :=
  { numChannels := pool.numChannels
    heatmap := fun ch =>
      if ch < pool.numChannels then pool.heatmap ch + apSlots.flatten.count ch
      else pool.heatmap ch
    conflictHistory := fun ch =>
      if 2 ≤ apSlots.flatten.count ch then pool.conflictHistory ch + 1
      else pool.conflictHistory ch }

/-- Phase 2 and the stats update of `_negotiation_round` (TDMAv7.py lines
361-372): the selections are resolved sequentially and the pool is
updated with the POST-resolution final selections, not with the raw
proposals. -/
def negotiationRound (pool : ChannelPool) (rand : Nat → Nat → Nat)
    (selections : List (List Nat)) : ChannelPool × List (List Nat) :=
  (update_stats pool (resolveAll pool.numChannels rand selections),
   resolveAll pool.numChannels rand selections)

/-- Counterexample to claim C4: the raw proposals [[0], [0]] contest
slot 0 (it appears in both stations' raw proposals), yet after the round
the pool's conflict-history counter for slot 0 is still 0 — the code
records conflicts from the post-resolution allocation [[0], [1]], which
has none. -/
theorem conflict_recording_raw_cex :
    (([[0], [0]] : List (List Nat)).flatten.count 0 = 2) ∧
    (negotiationRound (initPool 2) (fun _ _ => 0) [[0], [0]]).2 = [[0], [1]] ∧
    (negotiationRound (initPool 2) (fun _ _ => 0) [[0], [0]]).1.conflictHistory 0 = 0 := by
  refine ⟨by decide, by decide, by decide⟩

/-- Claim C4 (amended): in every round, a slot's conflict-history counter
is incremented by exactly 1 when the slot occurs with multiplicity ≥ 2
across the POST-resolution final selections and is unchanged otherwise;
conflict recording operates on the final allocation handed to
`update_stats`, not on the raw proposals supplied by the external source
(see the counterexample). -/
theorem negotiationRound_conflict_recording (pool : ChannelPool) (rand : Nat → Nat → Nat)
    (selections : List (List Nat)) (ch : Nat) :
    (negotiationRound pool rand selections).1.conflictHistory ch =
      pool.conflictHistory ch +
        (if 2 ≤ (resolveAll pool.numChannels rand selections).flatten.count ch then 1 else 0) ∧
    (negotiationRound pool rand selections).2 = resolveAll pool.numChannels rand selections := by
  refine ⟨?_, rfl⟩
  by_cases h : 2 ≤ (resolveAll pool.numChannels rand selections).flatten.count ch
  · simp [negotiationRound, update_stats, if_pos h]
  · simp [negotiationRound, update_stats, if_neg h]

/-- Counterexample to claim C9: the reachable final allocation
[[1], [2, 2]] (station 2 keeps slot 2 and also draws it as the random
replacement for its conflicting slot 1) makes slot 2's heat grow by 2 in
one round even though only one (station, slot) pair contains slot 2. -/
theorem heat_multiplicity_cex :
    resolveAll 3 (fun _ _ => 1) [[1], [1, 2]] = [[1], [2, 2]] ∧
    (update_stats (initPool 3) [[1], [2, 2]]).heatmap 2 = 2 ∧
    ([[1], [2, 2]] : List (List Nat)).countP (fun s => decide (2 ∈ s)) = 1 := by
  refine ⟨by decide, by decide, by decide⟩

lemma count_flatten_eq_countP : ∀ (apSlots : List (List Nat)) (ch : Nat),
    (∀ s ∈ apSlots, s.Nodup) →
    apSlots.flatten.count ch = apSlots.countP (fun s => decide (ch ∈ s)) := by
  intro apSlots
  induction apSlots with
  | nil =>
    intro ch _
    simp
  | cons s t ih =>
    intro ch hnd
    rw [List.flatten_cons, List.count_append, List.countP_cons,
      ih ch (fun y hy => hnd y (List.mem_cons_of_mem _ hy))]
    by_cases h : ch ∈ s
    · rw [List.count_eq_one_of_mem (hnd s (List.mem_cons_self _ _)) h]
      simp [h]
      omega
    · rw [List.count_eq_zero_of_not_mem h]
      simp [h]

lemma countP_mem_one_of_disjoint : ∀ (apSlots : List (List Nat)) (ch : Nat),
    List.Pairwise (fun A B => ∀ x ∈ A, x ∉ B) apSlots →
    (∃ s ∈ apSlots, ch ∈ s) →
    apSlots.countP (fun s => decide (ch ∈ s)) = 1 := by
  intro apSlots
  induction apSlots with
  | nil =>
    intro ch _ hex
    simp at hex
  | cons s t ih =>
    intro ch hpw hex
    obtain ⟨hhead, htail⟩ := List.pairwise_cons.mp hpw
    rw [List.countP_cons]
    by_cases h : ch ∈ s
    · have hz : t.countP (fun s2 => decide (ch ∈ s2)) = 0 := by
        rw [List.countP_eq_zero]
        intro a ha
        simp only [decide_eq_true_iff]
        exact hhead a ha ch h
      simp [hz, h]
    · have hex2 : ∃ s2 ∈ t, ch ∈ s2 := by
        rcases hex with ⟨s2, hs2, hchs2⟩
        rcases List.mem_cons.mp hs2 with he | hm
        · rw [he] at hchs2
          exact absurd hchs2 h
        · exact ⟨s2, hm, hchs2⟩
      rw [ih ch htail hex2]
      simp [h]

/-- Claim C9 (amended): a slot's heat grows by its total multiplicity
across the passed allocation lists.  For per-station duplicate-free
allocations that is exactly once per station using the slot; under a
pairwise-disjoint duplicate-free allocation every used in-domain slot
gains exactly 1 and every unused slot is unchanged.  With within-station
duplicates — which the resolver can produce — a single (station, slot)
pair can add more than 1 (see the counterexample). -/
theorem update_stats_heat_spec (pool : ChannelPool) (apSlots : List (List Nat)) (ch : Nat)
    (hch : ch < pool.numChannels) (hnd : ∀ s ∈ apSlots, s.Nodup) :
    (update_stats pool apSlots).heatmap ch =
      pool.heatmap ch + apSlots.countP (fun s => decide (ch ∈ s)) ∧
    ((∀ s ∈ apSlots, ch ∉ s) → (update_stats pool apSlots).heatmap ch = pool.heatmap ch) ∧
    (List.Pairwise (fun A B => ∀ x ∈ A, x ∉ B) apSlots → (∃ s ∈ apSlots, ch ∈ s) →
      (update_stats pool apSlots).heatmap ch = pool.heatmap ch + 1) := by
  have hbase : (update_stats pool apSlots).heatmap ch =
      pool.heatmap ch + apSlots.countP (fun s => decide (ch ∈ s)) := by
    rw [update_stats]
    simp only [if_pos hch]
    rw [count_flatten_eq_countP apSlots ch hnd]
  refine ⟨hbase, ?_, ?_⟩
  · intro hnone
    rw [hbase]
    have hz : apSlots.countP (fun s => decide (ch ∈ s)) = 0 := by
      rw [List.countP_eq_zero]
      intro a ha
      simp only [decide_eq_true_iff]
      exact hnone a ha
    rw [hz]
    omega
  · intro hpw hex
    rw [hbase, countP_mem_one_of_disjoint apSlots ch hpw hex]

/-- Concrete instance of claim C9 (amended). -/
theorem update_stats_heat_spec_inst :
    (update_stats (initPool 3) [[0, 1], [2]]).heatmap 2 = (initPool 3).heatmap 2 + 1 :=
  (update_stats_heat_spec (initPool 3) [[0, 1], [2]] 2 (by decide) (by decide)).2.2
    (by decide) (by decide)

/-- Outcome of one call to the external decision source: the call either
raised (timeout, transport failure) or returned a response from which the
tolerant parser extracts a channel list (`none` when no usable structure
was found in the text). -/
inductive ExtResult where
  | raised (e : String)
  | replied (payload : Option (List ℤ))

/-- `FeedbackCoordinator._fallback_strategy` (TDMAv7.py lines 324-327):
`sorted(random.sample(range(num_channels), expected))`; `none` models the
ValueError raised when `expected` exceeds `numChannels`. -/
def fallback_strategy (numChannels expected : Nat) (rand : Nat → Nat) : Option (List ℤ) :=
  (pySample rand ((List.range numChannels).map (fun n => Int.ofNat n)) expected 0).map
    (List.insertionSort (fun a b => a ≤ b))

/-- `FeedbackCoordinator._parse_response` (TDMAv7.py lines 296-309): a
usable payload is coerced, deduplicated, sorted and validated; any
failure inside the `try` block (no usable structure, validator exception)
degrades to the fallback strategy, whose own exception is not caught. -/
def parse_response (numChannels expected : Nat) (rand : Nat → Nat)
    (payload : Option (List ℤ)) : Option (List ℤ) :=
  match payload with
  | none => fallback_strategy numChannels expected rand
  | some chans =>
    match validate_channels numChannels expected rand
        (List.insertionSort (fun a b => a ≤ b) chans.dedup) with
    | some v => some v
    | none => fallback_strategy numChannels expected rand

/-- One station's Negotiating step as coded in `_negotiation_round`
(TDMAv7.py lines 351-359): `generate_reply` is called directly, with no
try/except around it, so an exception from the external source
propagates; a returned reply is parsed tolerantly. -/
def negotiationStep (numChannels expected : Nat) (rand : Nat → Nat) (r : ExtResult) :
    Except String (List ℤ) :=
  match r with
  | ExtResult.raised e => Except.error e
  | ExtResult.replied payload =>
    match parse_response numChannels expected rand payload with
    | some v => Except.ok v
    | none => Except.error "ValueError"

/-- `FeedbackCoordinator._get_agent_decision` (TDMAv7.py lines 284-294):
the protective wrapper that catches an external error and substitutes the
fallback strategy — defined in TDMAv7 but never invoked by
`_negotiation_round`. -/
def getAgentDecision (numChannels expected : Nat) (rand : Nat → Nat) (r : ExtResult) :
    Except String (List ℤ) :=
  match r with
  | ExtResult.raised _ =>
    match fallback_strategy numChannels expected rand with
    | some v => Except.ok v
    | none => Except.error "ValueError"
  | ExtResult.replied payload =>
    match parse_response numChannels expected rand payload with
    | some v => Except.ok v
    | none => Except.error "ValueError"

/-- Counterexample to claim C8: an error raised by the external source
during the Negotiating step propagates out unchanged — it is not replaced
by the fallback slot set — while the unused wrapper `_get_agent_decision`
would have caught it and substituted fallback slots. -/
theorem negotiationStep_error_propagates_cex :
    negotiationStep 4 2 (fun _ => 0) (ExtResult.raised "timeout") =
      Except.error "timeout" ∧
    getAgentDecision 4 2 (fun _ => 0) (ExtResult.raised "timeout") =
      Except.ok [0, 1] := by
  refine ⟨rfl, rfl⟩

/-- Claim C8 (amended): malformed payloads from the external source are
caught during parsing and degrade to the fallback path — whenever the
entitled demand is at most numSlots, the Negotiating step applied to any
reply returns exactly `expected` slots — but an error raised by the
external call itself is not caught in `_negotiation_round` and propagates
out of the round (see the counterexample). -/
theorem negotiationStep_parse_fallback (numChannels expected : Nat) (rand : Nat → Nat)
    (payload : Option (List ℤ)) (hexp : expected ≤ numChannels) :
    (∃ v, negotiationStep numChannels expected rand (ExtResult.replied payload) =
        Except.ok v ∧ v.length = expected) ∧
    (∀ e, negotiationStep numChannels expected rand (ExtResult.raised e) =
        Except.error e) := by
  constructor
  · cases payload with
    | none =>
      have hlen : expected ≤ ((List.range numChannels).map (fun n => Int.ofNat n)).length := by
        rw [List.length_map, List.length_range]
        exact hexp
      obtain ⟨l, hsome, hl, _, _⟩ := pySample_spec rand expected
        ((List.range numChannels).map (fun n => Int.ofNat n)) 0 hlen
      have hparse : parse_response numChannels expected rand none =
          some (List.insertionSort (fun a b => a ≤ b) l) := by
        show fallback_strategy numChannels expected rand =
          some (List.insertionSort (fun a b => a ≤ b) l)
        rw [fallback_strategy, hsome]
        rfl
      refine ⟨List.insertionSort (fun a b => a ≤ b) l, ?_, ?_⟩
      · show (match parse_response numChannels expected rand none with
          | some v => Except.ok v
          | none => Except.error "ValueError") =
          Except.ok (List.insertionSort (fun a b => a ≤ b) l)
        rw [hparse]
      · rw [(List.perm_insertionSort _ _).length_eq, hl]
    | some chans =>
      have hnd2 : (validSlots numChannels
          (List.insertionSort (fun a b => a ≤ b) chans.dedup)).Nodup :=
        List.Nodup.filter _
          ((List.perm_insertionSort _ _).symm.nodup (List.nodup_dedup chans))
      obtain ⟨l, hval, hlen2, _, _⟩ := validate_channels_total_aux numChannels expected rand
        (List.insertionSort (fun a b => a ≤ b) chans.dedup) hexp hnd2
      have hparse : parse_response numChannels expected rand (some chans) = some l := by
        show (match validate_channels numChannels expected rand
            (List.insertionSort (fun a b => a ≤ b) chans.dedup) with
          | some v => some v
          | none => fallback_strategy numChannels expected rand) = some l
        rw [hval]
      refine ⟨l, ?_, hlen2⟩
      show (match parse_response numChannels expected rand (some chans) with
        | some v => Except.ok v
        | none => Except.error "ValueError") = Except.ok l
      rw [hparse]
  · intro e
    rfl

/-- Concrete instance of claim C8 (amended) at a malformed payload. -/
theorem negotiationStep_parse_fallback_inst :
    (∃ v, negotiationStep 4 2 (fun _ => 0) (ExtResult.replied none) =
        Except.ok v ∧ v.length = 2) ∧
    (∀ e, negotiationStep 4 2 (fun _ => 0) (ExtResult.raised e) = Except.error e) :=
  negotiationStep_parse_fallback 4 2 (fun _ => 0) none (by decide)

/-- A persisted success record, as built in `FeedbackCoordinator.run`
(TDMAv4.py lines 407-415): the current demand ratio, both stations' final
slot sets, the rounds-to-success count, and a timestamp. -/
structure SuccessRecord where
  ratio : List ℤ
  ap1Slots : List Nat
  ap2Slots : List Nat
  rounds : Nat
  timestamp : String

/-- The record-relevant state of the coordinator: the in-memory success
collection, the save-file contents (`none` when the file does not
exist), and the rounds-since-success counter. -/
structure RecordState where
  records : List SuccessRecord
  file : Option (List SuccessRecord)
  rounds : Nat

/-- `FeedbackCoordinator._load_previous_records` (TDMAv4.py lines
365-372), invoked from `__init__` at process start: replace the
in-memory collection by the file contents when the file exists
(FileNotFoundError keeps the empty list). -/
def loadPreviousRecords (st : RecordState) : RecordState :=
  match st.file with
  | some rs => { st with records := rs }
  | none => st

/-- `FeedbackCoordinator._check_success(ap1, ap2)` (TDMAv4.py lines
373-378): no slot shared by the two final sets, and full coverage of the
domain (equivalently, utilization rate 1.0). -/
def checkSuccessV4 (numChannels : Nat) (ap1 ap2 : List Nat) : Bool :=
  ((ap1.dedup.filter (fun ch => decide (ch ∈ ap2))).length == 0) &&
    ((ap1 ++ ap2).dedup.length == numChannels)

/-- One pass of the round loop of `FeedbackCoordinator.run` (TDMAv4.py
lines 386-416) restricted to the record bookkeeping: the round counter
advances, and exactly on success one record is appended, the whole
collection is rewritten to the file, and the counter resets. -/
def runStepV4 (numChannels : Nat) (demand : List ℤ) (ts : String) (ap1 ap2 : List Nat)
    (st : RecordState) : RecordState :=
  if checkSuccessV4 numChannels ap1 ap2 then
    { records := st.records ++
        [{ ratio := demand, ap1Slots := ap1, ap2Slots := ap2,
           rounds := st.rounds + 1, timestamp := ts }]
      file := some (st.records ++
        [{ ratio := demand, ap1Slots := ap1, ap2Slots := ap2,
           rounds := st.rounds + 1, timestamp := ts }])
      rounds := 0 }
  else { st with rounds := st.rounds + 1 }

/-- The record bookkeeping of the TDMAv7 round loop (`run`, TDMAv7.py
lines 405-424): on success `_save_records()` rewrites the file with the
in-memory collection, but nothing is ever appended to that collection and
no load happens at startup (TDMAv7 has no `_load_previous_records`). -/
def runStepV7 (numChannels : Nat) (apSlots : List (List Nat)) (st : RecordState) :
    RecordState :=
  if checkSuccess numChannels apSlots then { st with file := some st.records } else st

/-- Counterexample to claim C5: in TDMAv7, a round that passes the
success check appends no record — the collection stays empty and the save
file is rewritten with the empty collection. -/
theorem runStepV7_no_append_cex :
    checkSuccess 4 [[0, 1], [2, 3]] = true ∧
    (runStepV7 4 [[0, 1], [2, 3]] { records := [], file := none, rounds := 0 }).records
      = [] ∧
    (runStepV7 4 [[0, 1], [2, 3]] { records := [], file := none, rounds := 0 }).file
      = some [] := by
  refine ⟨by decide, rfl, rfl⟩

/-- Claim C5 (amended, per TDMAv4): the collection is loaded from the
save file at process start; each round, exactly on success (zero
conflicts and full coverage), one new record carrying the current demand,
the final allocation, the rounds-to-success count and a timestamp is
appended and the whole collection is rewritten to the save file, the
existing records being preserved; TDMAv7's run loop instead rewrites the
file without ever appending or loading (see the counterexample). -/
theorem successRecord_lifecycle_v4 (numChannels : Nat) (demand : List ℤ) (ts : String)
    (ap1 ap2 : List Nat) (st : RecordState) (rs : List SuccessRecord) :
    (loadPreviousRecords { records := [], file := some rs, rounds := 0 }).records = rs ∧
    (runStepV4 numChannels demand ts ap1 ap2 st).records =
      (if checkSuccessV4 numChannels ap1 ap2 then
        st.records ++ [{ ratio := demand, ap1Slots := ap1, ap2Slots := ap2,
                         rounds := st.rounds + 1, timestamp := ts }]
       else st.records) ∧
    (runStepV4 numChannels demand ts ap1 ap2 st).file =
      (if checkSuccessV4 numChannels ap1 ap2 then
        some (st.records ++ [{ ratio := demand, ap1Slots := ap1, ap2Slots := ap2,
                               rounds := st.rounds + 1, timestamp := ts }])
       else st.file) ∧
    (∃ tail, (runStepV4 numChannels demand ts ap1 ap2 st).records = st.records ++ tail) := by
  refine ⟨rfl, ?_, ?_, ?_⟩
  · by_cases h : checkSuccessV4 numChannels ap1 ap2 = true
    · rw [runStepV4, if_pos h, if_pos h]
    · rw [runStepV4, if_neg h, if_neg h]
  · by_cases h : checkSuccessV4 numChannels ap1 ap2 = true
    · rw [runStepV4, if_pos h, if_pos h]
    · rw [runStepV4, if_neg h, if_neg h]
  · by_cases h : checkSuccessV4 numChannels ap1 ap2 = true
    · refine ⟨[{ ratio := demand, ap1Slots := ap1, ap2Slots := ap2,
                 rounds := st.rounds + 1, timestamp := ts }], ?_⟩
      rw [runStepV4, if_pos h]
    · refine ⟨[], ?_⟩
      rw [runStepV4, if_neg h, List.append_nil]
